import Mathlib

/-!
Verification development for the watchman in-memory view, query engine and
kqueue watcher backend.  The kqueue watcher functions are embedded from
src/watcher/kqueue.cpp; system calls (open, kevent, fstat, ...) are passed
in as explicit environment records so that the control flow of the C++
code becomes a pure function of the syscall outcomes.  The in-memory view
and the query pipeline exist in the sources only as declarations
(src/InMemoryView.h, src/watchman_query.h); their operational behaviour is
modelled from the specification text, as marked on each definition.
-/

set_option maxHeartbeats 1000000

namespace Watchman

/-! ### Association lists, standing in for the w_ht_t hash tables -/

/-- Lookup in an association list; first matching key wins (w_ht_get /
w_ht_lookup). -/
def alookup {κ α : Type} [DecidableEq κ] : List (κ × α) → κ → Option α
  | [], _ => none
  | (k, v) :: rest, key => if k = key then some v else alookup rest key

/-- Remove every binding of a key (w_ht_del). -/
def adel {κ α : Type} [DecidableEq κ] (l : List (κ × α)) (k : κ) : List (κ × α) :=
  l.filter fun p => decide (p.1 ≠ k)

/-- Bind a key to a value, dropping any previous binding (w_ht_replace). -/
def aset {κ α : Type} [DecidableEq κ] (l : List (κ × α)) (k : κ) (v : α) : List (κ × α) :=
  (k, v) :: adel l k

/-! ### The kqueue watcher state (src/watcher/kqueue.cpp)

The watcher keeps two hash tables, name_to_fd and fd_to_name, mapping a
watched path to the open file descriptor carrying its kevent registration
and back.  File descriptors are naturals, paths are strings. -/

structure KQueueState where
  name_to_fd : List (String × Nat)
  fd_to_name : List (Nat × String)
  deriving DecidableEq, Repr

/-- kqueue fflag bits, as in the kflags table of kqueue.cpp. -/
def NOTE_DELETE : Nat := 0x1
def NOTE_WRITE : Nat := 0x2
def NOTE_EXTEND : Nat := 0x4
def NOTE_ATTRIB : Nat := 0x8
def NOTE_LINK : Nat := 0x10
def NOTE_RENAME : Nat := 0x20
def NOTE_REVOKE : Nat := 0x40

/-- Modelled from the spec: the pending-collection flag bits RECURSIVE and
VIA_NOTIFY (their numeric values live in watchman.h, which is not among the
sources; only distinctness of the bits matters). -/
def W_PENDING_RECURSIVE : Nat := 0x1
def W_PENDING_VIA_NOTIFY : Nat := 0x2

/-- One kernel event as drained by kevent() in consumeNotify: the watched
descriptor (ident), the fflags bitmask, and the directory bit that
startWatchDir stored in udata (IS_DIR_BIT_SET). -/
structure KEvent where
  fd : Nat
  fflags : Nat
  is_dir : Bool
  deriving DecidableEq, Repr

/-- One entry added to the watchman_pending_collection by
w_pending_coll_add. -/
structure PendingEntry where
  path : String
  flags : Nat
  deriving DecidableEq, Repr

/-- The flags consumeNotify passes to w_pending_coll_add:
`is_dir ? 0 : (W_PENDING_RECURSIVE|W_PENDING_VIA_NOTIFY)`. -/
def pendingFlags (is_dir : Bool) : Nat :=
  if is_dir then 0 else W_PENDING_RECURSIVE ||| W_PENDING_VIA_NOTIFY

/-- Outcome of the per-event loop of KQueueWatcher::consumeNotify: the
final fd maps, the entries added to the pending collection in order, the
descriptors whose kevent registration was EV_DELETEd, and whether
w_root_cancel was invoked (root path hit by DELETE|RENAME|REVOKE). -/
structure LoopOut where
  state : KQueueState
  pending : List PendingEntry
  dereg : List Nat
  root_cancelled : Bool
  deriving DecidableEq, Repr

/-- The per-event loop of KQueueWatcher::consumeNotify (kqueue.cpp lines
267-315).  Each drained event is looked up in fd_to_name; unknown
descriptors are skipped.  DELETE/RENAME/REVOKE on the root path cancels the
root and returns immediately; on any other tracked path it deregisters the
kevent and drops the path from both maps.  Every processed event then adds
one pending entry for the mapped path. -/
def consumeEvents (root : String) : KQueueState → List KEvent → LoopOut
  | st, [] => ⟨st, [], [], false⟩
  | st, ev :: rest =>
    match alookup st.fd_to_name ev.fd with
    | none => consumeEvents root st rest
    | some path =>
      if (ev.fflags &&& (NOTE_DELETE ||| NOTE_RENAME ||| NOTE_REVOKE)) ≠ 0 then
        if path = root then ⟨st, [], [], true⟩
        else
          let st' : KQueueState :=
            ⟨adel st.name_to_fd path, adel st.fd_to_name ev.fd⟩
          let r := consumeEvents root st' rest
          ⟨r.state, ⟨path, pendingFlags ev.is_dir⟩ :: r.pending,
            ev.fd :: r.dereg, r.root_cancelled⟩
      else
        let r := consumeEvents root st rest
        ⟨r.state, ⟨path, pendingFlags ev.is_dir⟩ :: r.pending,
          r.dereg, r.root_cancelled⟩

/-- Result of one call to KQueueWatcher::consumeNotify: the boolean return
value, the final maps, the pending entries, the deregistered descriptors
and whether the root was cancelled during the call. -/
structure NotifyOut where
  ret : Bool
  state : KQueueState
  pending : List PendingEntry
  dereg : List Nat
  cancelled : Bool
  deriving DecidableEq, Repr

/-- Number of events the kernel delivered to one kevent() drain:
`none` models a failing call (n = -1), `some evs` a successful one. -/
def numDelivered (kres : Option (List KEvent)) : Nat :=
  (kres.getD []).length

/-- KQueueWatcher::consumeNotify (kqueue.cpp lines 240-318).  `rootCancelled`
is the value of root->inner.cancelled observed right after the kevent()
drain; `kres` is the kernel's answer.  A pre-cancelled root and a failing
kevent() both return false without touching anything; otherwise the event
loop runs and the call returns `n > 0` unless a root loss cut it short. -/
def consumeNotify (root : String) (st : KQueueState) (rootCancelled : Bool)
    (kres : Option (List KEvent)) : NotifyOut :=
  if rootCancelled then ⟨false, st, [], [], false⟩
  else
    match kres with
    | none => ⟨false, st, [], [], false⟩
    | some evs =>
      let r := consumeEvents root st evs
      ⟨!r.root_cancelled && decide (0 < evs.length), r.state, r.pending,
        r.dereg, r.root_cancelled⟩

/-! ### startWatchFile and startWatchDir (kqueue.cpp) -/

/-- Syscall outcomes for one startWatchFile call: the result of
open(full_name, O_EVTONLY) and whether the kevent EV_ADD registration
succeeds. -/
structure FileEnv where
  openRes : Option Nat
  keventOk : Bool
  deriving DecidableEq, Repr

/-- Observable outcome of KQueueWatcher::startWatchFile: return value,
final maps, whether open() was invoked, whether a kevent registration is
left in place, and the descriptor passed to close() if any. -/
structure FileOut where
  ret : Bool
  state : KQueueState
  opened : Bool
  registered : Bool
  closedFd : Option Nat
  deriving DecidableEq, Repr

/-- KQueueWatcher::startWatchFile (kqueue.cpp lines 110-160).  A name
already present in name_to_fd returns true at once; a failing open returns
false; on a failing kevent registration the fd is closed, the fresh map
entries are dropped again, and the call still returns true. -/
def startWatchFile (st : KQueueState) (fullName : String) (env : FileEnv) : FileOut :=
  match alookup st.name_to_fd fullName with
  | some _ => ⟨true, st, false, false, none⟩
  | none =>
    match env.openRes with
    | none => ⟨false, st, true, false, none⟩
    | some fd =>
      let st1 : KQueueState :=
        ⟨aset st.name_to_fd fullName fd, aset st.fd_to_name fd fullName⟩
      if env.keventOk then ⟨true, st1, true, true, none⟩
      else
        ⟨true, ⟨adel st1.name_to_fd fullName, adel st1.fd_to_name fd⟩,
          true, false, some fd⟩

/-- Device and inode of an fstat result, the two fields startWatchDir
compares. -/
structure StatInfo where
  dev : Nat
  ino : Nat
  deriving DecidableEq, Repr

/-- Syscall outcomes for one startWatchDir call: w_dir_open, the
open(path, O_NOFOLLOW|O_EVTONLY) descriptor, the two fstat results, and
whether the kevent EV_ADD registration succeeds. -/
structure DirEnv where
  opendirRes : Option Nat
  openRes : Option Nat
  fstatNewwd : Option StatInfo
  fstatOsdir : Option StatInfo
  keventOk : Bool
  deriving DecidableEq, Repr

/-- Observable outcome of KQueueWatcher::startWatchDir: the returned
directory handle (or null), final maps, whether handle_open_errno ran,
whether a recrawl was scheduled, and the descriptors passed to close() /
w_dir_close. -/
structure DirOut where
  handle : Option Nat
  state : KQueueState
  errorHandled : Bool
  recrawl : Bool
  closedFds : List Nat
  closedDirs : List Nat
  deriving DecidableEq, Repr

/-- KQueueWatcher::startWatchDir (kqueue.cpp lines 162-234).  Follows the
code path for path: opendir, open, the two fstats, the dev/ino replacement
check, then map insertion and kevent registration (whose failure drops the
fresh entries again but still returns the open directory handle). -/
def startWatchDir (st : KQueueState) (dirName : String) (env : DirEnv) : DirOut :=
  match env.opendirRes with
  | none => ⟨none, st, true, false, [], []⟩
  | some osdir =>
    match env.openRes with
    | none => ⟨none, st, true, false, [], [osdir]⟩
    | some newwd =>
      match env.fstatNewwd, env.fstatOsdir with
      | some stN, some stO =>
        if stN.dev ≠ stO.dev ∨ stN.ino ≠ stO.ino then
          ⟨none, st, true, false, [newwd], [osdir]⟩
        else
          let st1 : KQueueState :=
            ⟨aset st.name_to_fd dirName newwd, aset st.fd_to_name newwd dirName⟩
          if env.keventOk then ⟨some osdir, st1, false, false, [], []⟩
          else
            ⟨some osdir, ⟨adel st1.name_to_fd dirName, adel st1.fd_to_name newwd⟩,
              false, false, [newwd], []⟩
      | _, _ => ⟨none, st, false, true, [newwd], [osdir]⟩

/-! ### The in-memory view (src/InMemoryView.h)

InMemoryView.h declares the tree store, the recency index (latest_file),
the per-suffix lists, mostRecentTick_ and the age-out bookkeeping, but the
bodies of its member functions are not among the sources.  The model below
flattens the directory tree into one table keyed by wholename (the union
of every directory's files map), keeps the recency index as a list with
the most recently touched file first, and keeps the suffix index as a map
from suffix to its bucket list.  Each operation is modelled from the
specification text, as marked. -/

/-- One watchman_file as the view sees it: leaf name, existence bit, and
the observation/creation clocks (otime/ctime as tick plus wall clock). -/
structure WFile where
  name : String
  fexists : Bool
  otime_tick : Nat
  otime_stamp : Nat
  ctime_tick : Nat
  ctime_stamp : Nat
  deriving DecidableEq, Repr

/-- The InMemoryView state: the flattened files table (wholename → file),
the recency list (head = most recently changed file, i.e. latest_file),
the suffix buckets, mostRecentTick_, and the age-out bookkeeping. -/
structure ViewState where
  fileTab : List (String × WFile)
  recency : List String
  suffix : List (String × List String)
  mostRecentTick : Nat
  lastAgeOutTick : Nat
  lastAgeOutStamp : Nat
  deriving DecidableEq, Repr

/-- The otime tick of the file tracked under a wholename (0 if untracked). -/
def tickOf (s : ViewState) (w : String) : Nat :=
  match alookup s.fileTab w with
  | some f => f.otime_tick
  | none => 0

/-- Lowercase suffix of a leaf name: the part after the last dot, or the
empty string when there is no dot. -/
def suffixOf (name : String) : String :=
  let parts := name.splitOn "."
  if parts.length ≤ 1 then "" else (parts.getLastD "").map Char.toLower

/-- Modelled from the spec: suffix-bucket insertion (§3, §4.B) — a file is
inserted at the head of the bucket of its lowercase suffix when that
suffix is non-empty and the file is not already linked; the bucket entry
is created on demand and never deleted. -/
def suffixInsert (buckets : List (String × List String)) (sfx : String)
    (w : String) : List (String × List String) :=
  if sfx = "" then buckets
  else
    match alookup buckets sfx with
    | none => buckets ++ [(sfx, [w])]
    | some bucket =>
      if w ∈ bucket then buckets
      else
        buckets.map fun b => if b.1 = sfx then (sfx, w :: bucket) else b

/-- Modelled from the spec: InMemoryView::markFileChanged (§4.B) — stamps
the file's otime with the supplied now/tick, moves it to the head of the
recency list, inserts it into its suffix bucket if not already linked, and
records the tick as the most recently observed one. -/
def markFileChanged (s : ViewState) (w : String) (now tick : Nat) : ViewState :=
  match alookup s.fileTab w with
  | none => s
  | some f =>
    { fileTab := aset s.fileTab w { f with otime_tick := tick, otime_stamp := now },
      recency := w :: s.recency.filter (fun x => decide (x ≠ w)),
      suffix := suffixInsert s.suffix (suffixOf f.name) w,
      mostRecentTick := max s.mostRecentTick tick,
      lastAgeOutTick := s.lastAgeOutTick,
      lastAgeOutStamp := s.lastAgeOutStamp }

/-- Wholename of a direct child of a directory. -/
def childPath (dirPath name : String) : String :=
  dirPath ++ "/" ++ name

/-- Modelled from the spec: InMemoryView::getOrCreateChildFile (§4.B and
the header comment) — returns the already-tracked child unchanged, else
creates the entry with ctime = otime = (now, tick), places it at the head
of the recency list and links it into its suffix bucket. -/
def getOrCreateChildFile (s : ViewState) (dirPath name : String)
    (now tick : Nat) : ViewState :=
  let w := childPath dirPath name
  match alookup s.fileTab w with
  | some _ => s
  | none =>
    { fileTab := aset s.fileTab w ⟨name, false, tick, now, tick, now⟩,
      recency := w :: s.recency,
      suffix := suffixInsert s.suffix (suffixOf name) w,
      mostRecentTick := max s.mostRecentTick tick,
      lastAgeOutTick := s.lastAgeOutTick,
      lastAgeOutStamp := s.lastAgeOutStamp }

/-- Whether a wholename lies in a directory: under it at any depth when
`recursive`, else as a direct child. -/
def inDir (dirPath : String) (recursive : Bool) (w : String) : Bool :=
  let dsl := (dirPath ++ "/").toList
  dsl.isPrefixOf w.toList &&
    (recursive || (w.toList.drop dsl.length).all fun c => !(c = '/'))

/-- The files of a directory that markDirDeleted stamps, in table order. -/
def dirVictims (s : ViewState) (dirPath : String) (recursive : Bool) : List String :=
  (s.fileTab.filter fun p => inDir dirPath recursive p.1).map Prod.fst

/-- Modelled from the spec: the per-file step of markDirDeleted (§4.B) —
stamp the file as non-existent with the current now/tick and move it to
the head of the recency list. -/
def stampDeleted (now tick : Nat) (s : ViewState) (w : String) : ViewState :=
  match alookup s.fileTab w with
  | none => s
  | some f =>
    { fileTab := aset s.fileTab w
        { f with fexists := false, otime_tick := tick, otime_stamp := now },
      recency := w :: s.recency.filter (fun x => decide (x ≠ w)),
      suffix := s.suffix,
      mostRecentTick := max s.mostRecentTick tick,
      lastAgeOutTick := s.lastAgeOutTick,
      lastAgeOutStamp := s.lastAgeOutStamp }

/-- The common shape of a view after re-stamping the tracked file w with a
record f' and moving it to the recency head, with new suffix buckets B:
the state produced by markFileChanged and by the per-file step of
markDirDeleted. -/
def touched (s : ViewState) (w : String) (f' : WFile)
    (B : List (String × List String)) (tick : Nat) : ViewState :=
  { fileTab := aset s.fileTab w f',
    recency := w :: s.recency.filter (fun x => decide (x ≠ w)),
    suffix := B,
    mostRecentTick := max s.mostRecentTick tick,
    lastAgeOutTick := s.lastAgeOutTick,
    lastAgeOutStamp := s.lastAgeOutStamp }

/-- The common shape of a view after creating a fresh file w with record
f' at the recency head, with new suffix buckets B: the state produced by
getOrCreateChildFile on an untracked name. -/
def created (s : ViewState) (w : String) (f' : WFile)
    (B : List (String × List String)) (tick : Nat) : ViewState :=
  { fileTab := aset s.fileTab w f',
    recency := w :: s.recency,
    suffix := B,
    mostRecentTick := max s.mostRecentTick tick,
    lastAgeOutTick := s.lastAgeOutTick,
    lastAgeOutStamp := s.lastAgeOutStamp }

/-- Modelled from the spec: InMemoryView::markDirDeleted (§4.B) — iterates
over the directory's files (all descendants when recursive), stamping each
as non-existent with the current tick and recording it in the recency
list; entries are not yet unlinked from the parent maps (age-out does
that). -/
def markDirDeleted (s : ViewState) (dirPath : String) (now tick : Nat)
    (recursive : Bool) : ViewState :=
  (dirVictims s dirPath recursive).foldl (stampDeleted now tick) s

/-! ### Age-out (spec §4.I) -/

/-- Modelled from the spec: the walk of InMemoryView::ageOut (§4.I) — from
the tail (oldest) end of the recency list toward the head, reaping while
the file is non-existent and strictly older than min_age, stopping at the
first file that exists or is young enough.  Returns the reaped
wholenames. -/
def ageOutSegment (now minAge : Nat) (s : ViewState) : List String :=
  s.recency.reverse.takeWhile fun n =>
    match alookup s.fileTab n with
    | some f => !f.fexists && decide (minAge < now - f.otime_stamp)
    | none => false

/-- Modelled from the spec: InMemoryView::ageOut (§4.I) — every reaped
file is unlinked from the recency list, from every suffix bucket and from
its parent directory's files map (the flattened table), and the age-out
bookkeeping is set to (mostRecentTick, now).  Directory pruning removes no
files and is omitted. -/
def ageOut (now minAge : Nat) (s : ViewState) : ViewState :=
  let reaped := ageOutSegment now minAge s
  { fileTab := s.fileTab.filter fun p => decide (p.1 ∉ reaped),
    recency := s.recency.filter fun n => decide (n ∉ reaped),
    suffix := s.suffix.map fun b => (b.1, b.2.filter fun n => decide (n ∉ reaped)),
    mostRecentTick := s.mostRecentTick,
    lastAgeOutTick := s.mostRecentTick,
    lastAgeOutStamp := now }

/-! ### The query pipeline (src/watchman_query.h, spec §4.F-§4.H) -/

/-- w_query_since from src/watchman_query.h, with the union flattened:
either a timestamp cut or a clock cut carrying the fresh-instance bit. -/
structure WQuerySince where
  is_timestamp : Bool
  timestamp : Nat
  is_fresh_instance : Bool
  ticks : Nat
  deriving DecidableEq, Repr

/-- The w_query flags relevant here, from src/watchman_query.h. -/
structure WQuery where
  case_sensitive : Bool
  empty_on_fresh_instance : Bool
  dedup_results : Bool
  deriving DecidableEq, Repr

/-- The mutable part of w_query_ctx from src/watchman_query.h: the result
wholenames in order, the dedup set, the suppression counter and the
resolved since. -/
structure QueryCtx where
  results : List String
  dedup : List String
  num_deduped : Nat
  since : WQuerySince
  deriving DecidableEq, Repr

/-- A fresh w_query_ctx: empty results, empty dedup set, zero
num_deduped. -/
def initCtx (since : WQuerySince) : QueryCtx :=
  ⟨[], [], 0, since⟩

/-- Modelled from the spec: w_query_process_file (§4.H step 4) — apply the
relative-root filter, evaluate the expression, then with dedup on consult
the dedup set (counting a hit in num_deduped and dropping the file), else
append the wholename to the results.  The two predicates abstract the
relative-root check and the expression tree's evaluate. -/
def w_query_process_file (q : WQuery) (relOk exprOk : String → Bool)
    (ctx : QueryCtx) (w : String) : QueryCtx :=
  if !(relOk w) then ctx
  else if !(exprOk w) then ctx
  else if q.dedup_results then
    if w ∈ ctx.dedup then { ctx with num_deduped := ctx.num_deduped + 1 }
    else { ctx with results := ctx.results ++ [w], dedup := w :: ctx.dedup }
  else { ctx with results := ctx.results ++ [w] }

/-- Modelled from the spec: InMemoryView::timeGenerator (§4.F) — walks the
recency list from the head and stops at the first file whose otime.tick is
below the since cut; the wholenames walked past are the ones emitted to
the query context. -/
def timeGenerator (s : ViewState) (t : Nat) : List String :=
  s.recency.takeWhile fun n => decide (t ≤ tickOf s n)

/-- Modelled from the spec: w_query_execute for a since query (§4.H) —
resolve the since spec against the view (tick below last_age_out_tick
makes a fresh instance), honour empty_on_fresh_instance, choose the
candidate set (whole view on a fresh instance, the time generator
otherwise), push every candidate through w_query_process_file, and return
(is_fresh_instance, results, mostRecentTick). -/
def w_query_execute (q : WQuery) (relOk exprOk : String → Bool)
    (s : ViewState) (sinceTick : Nat) : Bool × List String × Nat :=
  let since : WQuerySince :=
    ⟨false, 0, decide (sinceTick < s.lastAgeOutTick), sinceTick⟩
  if since.is_fresh_instance && q.empty_on_fresh_instance then
    (true, [], s.mostRecentTick)
  else
    let candidates :=
      if since.is_fresh_instance then s.recency else timeGenerator s sinceTick
    let ctx := candidates.foldl (w_query_process_file q relOk exprOk) (initCtx since)
    (since.is_fresh_instance, ctx.results, s.mostRecentTick)

/-! ### Invariants of the view (spec §3, §8) -/

/-- The state invariant of the view: every tracked file's otime tick is
bounded by mostRecentTick, the recency list is ordered by non-increasing
otime tick from the head, and every recency entry is a tracked file. -/
def Inv (s : ViewState) : Prop :=
  (∀ p ∈ s.fileTab, p.2.otime_tick ≤ s.mostRecentTick) ∧
  s.recency.Pairwise (fun a b => tickOf s b ≤ tickOf s a) ∧
  (∀ w ∈ s.recency, (alookup s.fileTab w).isSome)

instance (s : ViewState) : Decidable (Inv s) := by
  unfold Inv
  infer_instance

/-! ### Association-list lemmas -/

theorem alookup_adel {κ α : Type} [DecidableEq κ] (l : List (κ × α)) (k k' : κ) :
    alookup (adel l k) k' = if k' = k then none else alookup l k' := by
  induction l with
  | nil => simp [adel, alookup]
  | cons p rest ih =>
    obtain ⟨pk, pv⟩ := p
    by_cases hpk : pk = k
    · have h1 : adel ((pk, pv) :: rest) k = adel rest k := by
        simp [adel, hpk]
      rw [h1, ih]
      by_cases hk : k' = k
      · simp [hk]
      · have h2 : ¬ pk = k' := by
          rw [hpk]
          exact fun hh => hk hh.symm
        simp [alookup, hk, h2]
    · have h1 : adel ((pk, pv) :: rest) k = (pk, pv) :: adel rest k := by
        simp [adel, hpk]
      rw [h1]
      by_cases hpk' : pk = k'
      · have hk : ¬ k' = k := fun hh => hpk (hpk'.trans hh)
        simp [alookup, hpk', hk]
      · simp [alookup, hpk', ih]

theorem alookup_aset {κ α : Type} [DecidableEq κ] (l : List (κ × α)) (k k' : κ) (v : α) :
    alookup (aset l k v) k' = if k' = k then some v else alookup l k' := by
  by_cases hk : k' = k
  · subst hk
    simp [aset, alookup]
  · simp [aset, alookup, Ne.symm hk, hk, alookup_adel]

theorem alookup_mem {κ α : Type} [DecidableEq κ] (l : List (κ × α)) (k : κ) (v : α)
    (h : alookup l k = some v) : (k, v) ∈ l := by
  induction l with
  | nil => simp [alookup] at h
  | cons p rest ih =>
    obtain ⟨pk, pv⟩ := p
    by_cases hpk : pk = k
    · subst hpk
      simp [alookup] at h
      subst h
      exact List.mem_cons_self _ _
    · simp [alookup, hpk] at h
      exact List.mem_cons_of_mem _ (ih h)

theorem mem_aset {κ α : Type} [DecidableEq κ] (l : List (κ × α)) (k : κ) (v : α)
    (p : κ × α) (h : p ∈ aset l k v) : p = (k, v) ∨ p ∈ l := by
  rcases List.mem_cons.mp h with h1 | h2
  · exact Or.inl h1
  · exact Or.inr (List.mem_of_mem_filter h2)

/-! ### Lemmas on the consumeNotify event loop -/

/-- The event loop never adds map entries: an fd absent from fd_to_name
stays absent. -/
theorem consumeEvents_fd_none (root : String) (evs : List KEvent) :
    ∀ (st : KQueueState) (k : Nat), alookup st.fd_to_name k = none →
      alookup (consumeEvents root st evs).state.fd_to_name k = none := by
  induction evs with
  | nil => intro st k h; simpa [consumeEvents] using h
  | cons ev rest ih =>
    intro st k h
    unfold consumeEvents
    cases hl : alookup st.fd_to_name ev.fd with
    | none => simpa using ih st k h
    | some path =>
      by_cases hf : (ev.fflags &&& (NOTE_DELETE ||| NOTE_RENAME ||| NOTE_REVOKE)) ≠ 0
      · by_cases hr : path = root
        · simpa [hf, hr] using h
        · have h' : alookup (adel st.fd_to_name ev.fd) k = none := by
            rw [alookup_adel]
            by_cases hk : k = ev.fd
            · simp [hk]
            · simp [hk, h]
          simpa [hf, hr] using ih ⟨adel st.name_to_fd path, adel st.fd_to_name ev.fd⟩ k h'
      · simpa [hf] using ih st k h

/-- The event loop never adds map entries: a name absent from name_to_fd
stays absent. -/
theorem consumeEvents_name_none (root : String) (evs : List KEvent) :
    ∀ (st : KQueueState) (k : String), alookup st.name_to_fd k = none →
      alookup (consumeEvents root st evs).state.name_to_fd k = none := by
  induction evs with
  | nil => intro st k h; simpa [consumeEvents] using h
  | cons ev rest ih =>
    intro st k h
    unfold consumeEvents
    cases hl : alookup st.fd_to_name ev.fd with
    | none => simpa using ih st k h
    | some path =>
      by_cases hf : (ev.fflags &&& (NOTE_DELETE ||| NOTE_RENAME ||| NOTE_REVOKE)) ≠ 0
      · by_cases hr : path = root
        · simpa [hf, hr] using h
        · have h' : alookup (adel st.name_to_fd path) k = none := by
            rw [alookup_adel]
            by_cases hk : k = path
            · simp [hk]
            · simp [hk, h]
          simpa [hf, hr] using ih ⟨adel st.name_to_fd path, adel st.fd_to_name ev.fd⟩ k h'
      · simpa [hf] using ih st k h

/-- Equation lemma: the loop skips an event whose fd is unknown. -/
theorem consumeEvents_cons_none (root : String) (st : KQueueState) (ev : KEvent)
    (rest : List KEvent) (h : alookup st.fd_to_name ev.fd = none) :
    consumeEvents root st (ev :: rest) = consumeEvents root st rest := by
  simp only [consumeEvents, h]

/-- Equation lemma: an event without DELETE/RENAME/REVOKE only adds its
pending entry. -/
theorem consumeEvents_cons_keep (root : String) (st : KQueueState) (ev : KEvent)
    (rest : List KEvent) (path : String)
    (h : alookup st.fd_to_name ev.fd = some path)
    (hf : (ev.fflags &&& (NOTE_DELETE ||| NOTE_RENAME ||| NOTE_REVOKE)) = 0) :
    consumeEvents root st (ev :: rest) =
      ⟨(consumeEvents root st rest).state,
        ⟨path, pendingFlags ev.is_dir⟩ :: (consumeEvents root st rest).pending,
        (consumeEvents root st rest).dereg,
        (consumeEvents root st rest).root_cancelled⟩ := by
  simp only [consumeEvents, h]
  simp [hf]

/-- Equation lemma: DELETE/RENAME/REVOKE on the root path cancels the root
and stops the loop. -/
theorem consumeEvents_cons_root (root : String) (st : KQueueState) (ev : KEvent)
    (rest : List KEvent) (path : String)
    (h : alookup st.fd_to_name ev.fd = some path)
    (hf : (ev.fflags &&& (NOTE_DELETE ||| NOTE_RENAME ||| NOTE_REVOKE)) ≠ 0)
    (hr : path = root) :
    consumeEvents root st (ev :: rest) = ⟨st, [], [], true⟩ := by
  simp only [consumeEvents, h]
  simp [hf, hr]

/-- Equation lemma: DELETE/RENAME/REVOKE on a non-root tracked path drops
the watch from both maps, deregisters the kevent, and still adds the
pending entry. -/
theorem consumeEvents_cons_del (root : String) (st : KQueueState) (ev : KEvent)
    (rest : List KEvent) (path : String)
    (h : alookup st.fd_to_name ev.fd = some path)
    (hf : (ev.fflags &&& (NOTE_DELETE ||| NOTE_RENAME ||| NOTE_REVOKE)) ≠ 0)
    (hr : path ≠ root) :
    consumeEvents root st (ev :: rest) =
      ⟨(consumeEvents root ⟨adel st.name_to_fd path, adel st.fd_to_name ev.fd⟩ rest).state,
        ⟨path, pendingFlags ev.is_dir⟩ ::
          (consumeEvents root ⟨adel st.name_to_fd path, adel st.fd_to_name ev.fd⟩ rest).pending,
        ev.fd ::
          (consumeEvents root ⟨adel st.name_to_fd path, adel st.fd_to_name ev.fd⟩ rest).dereg,
        (consumeEvents root ⟨adel st.name_to_fd path, adel st.fd_to_name ev.fd⟩ rest).root_cancelled⟩ := by
  simp only [consumeEvents, h]
  simp [hf, hr]

/-- Composition of the event loop over an appended batch: a root
cancellation inside the first part cuts the whole run short, otherwise the
outcomes concatenate. -/
theorem consumeEvents_append (root : String) (l1 l2 : List KEvent) :
    ∀ st : KQueueState,
      consumeEvents root st (l1 ++ l2) =
        (if (consumeEvents root st l1).root_cancelled then consumeEvents root st l1
         else
          ⟨(consumeEvents root (consumeEvents root st l1).state l2).state,
            (consumeEvents root st l1).pending ++
              (consumeEvents root (consumeEvents root st l1).state l2).pending,
            (consumeEvents root st l1).dereg ++
              (consumeEvents root (consumeEvents root st l1).state l2).dereg,
            (consumeEvents root (consumeEvents root st l1).state l2).root_cancelled⟩) := by
  induction l1 with
  | nil => intro st; simp [consumeEvents]
  | cons ev rest ih =>
    intro st
    rw [List.cons_append]
    cases hl : alookup st.fd_to_name ev.fd with
    | none =>
      rw [consumeEvents_cons_none root st ev (rest ++ l2) hl,
        consumeEvents_cons_none root st ev rest hl]
      exact ih st
    | some path =>
      by_cases hf : (ev.fflags &&& (NOTE_DELETE ||| NOTE_RENAME ||| NOTE_REVOKE)) = 0
      · rw [consumeEvents_cons_keep root st ev (rest ++ l2) path hl hf,
          consumeEvents_cons_keep root st ev rest path hl hf, ih st]
        by_cases hc : (consumeEvents root st rest).root_cancelled
        · simp [hc]
        · simp [hc]
      · by_cases hr : path = root
        · rw [consumeEvents_cons_root root st ev (rest ++ l2) path hl hf hr,
            consumeEvents_cons_root root st ev rest path hl hf hr]
          simp
        · rw [consumeEvents_cons_del root st ev (rest ++ l2) path hl hf hr,
            consumeEvents_cons_del root st ev rest path hl hf hr,
            ih ⟨adel st.name_to_fd path, adel st.fd_to_name ev.fd⟩]
          by_cases hc : (consumeEvents root
              ⟨adel st.name_to_fd path, adel st.fd_to_name ev.fd⟩ rest).root_cancelled
          · simp [hc]
          · simp [hc]

/-- Unfolding of consumeNotify on a live root with a successful drain. -/
theorem consumeNotify_some (root : String) (st : KQueueState) (evs : List KEvent) :
    consumeNotify root st false (some evs) =
      ⟨!(consumeEvents root st evs).root_cancelled && decide (0 < evs.length),
        (consumeEvents root st evs).state, (consumeEvents root st evs).pending,
        (consumeEvents root st evs).dereg, (consumeEvents root st evs).root_cancelled⟩ :=
  rfl

/-! ### Claim theorems for the kqueue watcher -/

/-- Claim C5 counterexample: an event whose fd is found in fd_to_name (here
fd 5, mapped to the root path, carrying NOTE_DELETE) can produce no pending
entry at all, because the root loss cancels the root before
w_pending_coll_add runs. -/
theorem consume_notify_pending_cex :
    alookup (⟨[("/r", 5)], [(5, "/r")]⟩ : KQueueState).fd_to_name 5 = some "/r" ∧
    (consumeNotify "/r" ⟨[("/r", 5)], [(5, "/r")]⟩ false
        (some [⟨5, NOTE_DELETE, true⟩])).pending = [] := by
  constructor
  · rfl
  · rfl

/-- Claim C5 (amended): any drained event whose fd is found in fd_to_name
at processing time, and which does not trigger root cancellation, adds
exactly one pending entry — for the mapped path, with flags
RECURSIVE|VIA_NOTIFY when the directory bit is unset and no flags when it
is set. -/
theorem consume_notify_pending_one_entry (root : String) (st0 : KQueueState)
    (pre : List KEvent) (ev : KEvent) (post : List KEvent) (path : String)
    (h1 : (consumeEvents root st0 pre).root_cancelled = false)
    (h2 : alookup (consumeEvents root st0 pre).state.fd_to_name ev.fd = some path)
    (h3 : ¬((ev.fflags &&& (NOTE_DELETE ||| NOTE_RENAME ||| NOTE_REVOKE)) ≠ 0 ∧ path = root)) :
    (consumeNotify root st0 false (some (pre ++ ev :: post))).pending =
      (consumeEvents root st0 pre).pending ++
        ⟨path, pendingFlags ev.is_dir⟩ ::
          (consumeEvents root
            (if (ev.fflags &&& (NOTE_DELETE ||| NOTE_RENAME ||| NOTE_REVOKE)) ≠ 0 then
              (⟨adel (consumeEvents root st0 pre).state.name_to_fd path,
                adel (consumeEvents root st0 pre).state.fd_to_name ev.fd⟩ : KQueueState)
             else (consumeEvents root st0 pre).state) post).pending := by
  have happ := consumeEvents_append root pre (ev :: post) st0
  rw [h1] at happ
  rw [if_neg Bool.false_ne_true] at happ
  rw [consumeNotify_some, happ]
  by_cases hf : (ev.fflags &&& (NOTE_DELETE ||| NOTE_RENAME ||| NOTE_REVOKE)) ≠ 0
  · have hr : path ≠ root := fun hh => h3 ⟨hf, hh⟩
    rw [consumeEvents_cons_del root (consumeEvents root st0 pre).state ev post path h2 hf hr]
    simp [hf]
  · rw [consumeEvents_cons_keep root (consumeEvents root st0 pre).state ev post path h2
      (by simpa using hf)]
    simp [hf]

/-- Claim C5 amended-theorem witness at a concrete input: one WRITE event
for a watched file adds exactly its pending entry. -/
theorem consume_notify_pending_one_entry_witness :
    (consumeNotify "/r" ⟨[("/r/a", 4)], [(4, "/r/a")]⟩ false
        (some [⟨4, NOTE_WRITE, false⟩])).pending =
      [⟨"/r/a", pendingFlags false⟩] := by
  have h := consume_notify_pending_one_entry "/r" ⟨[("/r/a", 4)], [(4, "/r/a")]⟩
    [] ⟨4, NOTE_WRITE, false⟩ [] "/r/a" (by rfl) (by rfl) (by decide)
  simpa using h

/-- Claim C6: a processed event carrying DELETE, RENAME or REVOKE for a
tracked non-root path deregisters that fd's kevent and removes the path
from both maps for the rest of the call; on the root path it instead
cancels the root. -/
theorem consume_notify_removes_watch (root : String) (st0 : KQueueState)
    (pre : List KEvent) (ev : KEvent) (post : List KEvent) (path : String)
    (h1 : (consumeEvents root st0 pre).root_cancelled = false)
    (h2 : alookup (consumeEvents root st0 pre).state.fd_to_name ev.fd = some path)
    (h3 : (ev.fflags &&& (NOTE_DELETE ||| NOTE_RENAME ||| NOTE_REVOKE)) ≠ 0) :
    (path ≠ root →
      ev.fd ∈ (consumeNotify root st0 false (some (pre ++ ev :: post))).dereg ∧
      alookup (consumeNotify root st0 false (some (pre ++ ev :: post))).state.name_to_fd path
        = none ∧
      alookup (consumeNotify root st0 false (some (pre ++ ev :: post))).state.fd_to_name ev.fd
        = none) ∧
    (path = root →
      (consumeNotify root st0 false (some (pre ++ ev :: post))).cancelled = true) := by
  have happ := consumeEvents_append root pre (ev :: post) st0
  rw [h1] at happ
  rw [if_neg Bool.false_ne_true] at happ
  constructor
  · intro hr
    rw [consumeEvents_cons_del root (consumeEvents root st0 pre).state ev post path h2 h3 hr]
      at happ
    have hn0 : alookup (adel (consumeEvents root st0 pre).state.name_to_fd path) path = none := by
      rw [alookup_adel]
      simp
    have hf0 : alookup (adel (consumeEvents root st0 pre).state.fd_to_name ev.fd) ev.fd = none := by
      rw [alookup_adel]
      simp
    have hn := consumeEvents_name_none root post
      ⟨adel (consumeEvents root st0 pre).state.name_to_fd path,
        adel (consumeEvents root st0 pre).state.fd_to_name ev.fd⟩ path hn0
    have hf := consumeEvents_fd_none root post
      ⟨adel (consumeEvents root st0 pre).state.name_to_fd path,
        adel (consumeEvents root st0 pre).state.fd_to_name ev.fd⟩ ev.fd hf0
    rw [consumeNotify_some, happ]
    refine ⟨?_, ?_, ?_⟩
    · simp
    · simpa using hn
    · simpa using hf
  · intro hr
    rw [consumeEvents_cons_root root (consumeEvents root st0 pre).state ev post path h2 h3 hr]
      at happ
    rw [consumeNotify_some, happ]

/-- Claim C6 witness at a concrete input: a RENAME on a watched non-root
path deregisters fd 6 and drops it from both maps. -/
theorem consume_notify_removes_watch_witness :
    6 ∈ (consumeNotify "/r" ⟨[("/r/sub", 6)], [(6, "/r/sub")]⟩ false
        (some [⟨6, NOTE_RENAME, true⟩])).dereg ∧
    alookup (consumeNotify "/r" ⟨[("/r/sub", 6)], [(6, "/r/sub")]⟩ false
        (some [⟨6, NOTE_RENAME, true⟩])).state.name_to_fd "/r/sub" = none ∧
    alookup (consumeNotify "/r" ⟨[("/r/sub", 6)], [(6, "/r/sub")]⟩ false
        (some [⟨6, NOTE_RENAME, true⟩])).state.fd_to_name 6 = none :=
  (consume_notify_removes_watch "/r" ⟨[("/r/sub", 6)], [(6, "/r/sub")]⟩
    [] ⟨6, NOTE_RENAME, true⟩ [] "/r/sub" (by rfl) (by rfl) (by decide)).1 (by decide)

/-- Claim C7 counterexample: with the root already cancelled, one event is
delivered by the kernel yet consumeNotify returns false. -/
theorem consume_notify_ret_cex :
    ¬(((consumeNotify "/r" ⟨[], []⟩ true (some [⟨1, NOTE_WRITE, false⟩])).ret = true) ↔
      0 < numDelivered (some [⟨1, NOTE_WRITE, false⟩])) := by
  decide

/-- Claim C7 (amended): consumeNotify returns true exactly when the kernel
delivered at least one event, the root was not already cancelled, and the
call itself did not cancel the root. -/
theorem consume_notify_ret_iff (root : String) (st : KQueueState) (c : Bool)
    (kres : Option (List KEvent)) :
    (consumeNotify root st c kres).ret = true ↔
      (0 < numDelivered kres ∧ c = false ∧
        (consumeNotify root st c kres).cancelled = false) := by
  cases c with
  | true => simp [consumeNotify]
  | false =>
    cases kres with
    | none => simp [consumeNotify, numDelivered]
    | some evs =>
      rw [consumeNotify_some]
      by_cases hc : (consumeEvents root st evs).root_cancelled
      · simp [hc, numDelivered]
      · simp only [Bool.not_eq_true] at hc
        simp [hc, numDelivered]

/-- Claim C8: when the directory is replaced between opendir and open (the
two fstat results disagree on device or inode), startWatchDir invokes the
error handler, closes both handles, returns null, and leaves both maps
untouched. -/
theorem start_watch_dir_replaced (st : KQueueState) (dirName : String) (env : DirEnv)
    (osdir newwd : Nat) (stN stO : StatInfo)
    (h1 : env.opendirRes = some osdir) (h2 : env.openRes = some newwd)
    (h3 : env.fstatNewwd = some stN) (h4 : env.fstatOsdir = some stO)
    (h5 : stN.dev ≠ stO.dev ∨ stN.ino ≠ stO.ino) :
    startWatchDir st dirName env = ⟨none, st, true, false, [newwd], [osdir]⟩ := by
  simp only [startWatchDir, h1, h2, h3, h4]
  rw [if_pos h5]

/-- Claim C8 witness at a concrete input: matching devices but differing
inodes trigger the replacement bail-out. -/
theorem start_watch_dir_replaced_witness :
    startWatchDir ⟨[], []⟩ "d" ⟨some 10, some 11, some ⟨1, 2⟩, some ⟨1, 3⟩, true⟩ =
      ⟨none, ⟨[], []⟩, true, false, [11], [10]⟩ :=
  start_watch_dir_replaced ⟨[], []⟩ "d" ⟨some 10, some 11, some ⟨1, 2⟩, some ⟨1, 3⟩, true⟩
    10 11 ⟨1, 2⟩ ⟨1, 3⟩ rfl rfl rfl rfl (Or.inr (by decide))

/-- Claim C10: startWatchFile returns false only when open fails; an
already-watched name returns true untouched without opening; and a failed
kevent registration closes the fd, removes exactly the fresh entries from
both maps, and still returns true. -/
theorem start_watch_file_ret :
    (∀ (st : KQueueState) (nm : String) (env : FileEnv),
      (startWatchFile st nm env).ret = false →
        (startWatchFile st nm env).opened = true ∧ env.openRes = none) ∧
    (∀ (st : KQueueState) (nm : String) (env : FileEnv) (fd0 : Nat),
      alookup st.name_to_fd nm = some fd0 →
        startWatchFile st nm env = ⟨true, st, false, false, none⟩) ∧
    (∀ (st : KQueueState) (nm : String) (env : FileEnv) (fd : Nat),
      alookup st.name_to_fd nm = none → env.openRes = some fd → env.keventOk = false →
        (startWatchFile st nm env).ret = true ∧
        (startWatchFile st nm env).closedFd = some fd ∧
        alookup (startWatchFile st nm env).state.name_to_fd nm = none ∧
        alookup (startWatchFile st nm env).state.fd_to_name fd = none ∧
        (∀ k : String, k ≠ nm →
          alookup (startWatchFile st nm env).state.name_to_fd k = alookup st.name_to_fd k) ∧
        (∀ d : Nat, d ≠ fd →
          alookup (startWatchFile st nm env).state.fd_to_name d = alookup st.fd_to_name d)) := by
  refine ⟨?_, ?_, ?_⟩
  · intro st nm env h
    cases hl : alookup st.name_to_fd nm with
    | some fd0 => simp [startWatchFile, hl] at h
    | none =>
      cases ho : env.openRes with
      | none => simp [startWatchFile, hl, ho]
      | some fd =>
        cases hk : env.keventOk with
        | true => simp [startWatchFile, hl, ho, hk] at h
        | false => simp [startWatchFile, hl, ho, hk] at h
  · intro st nm env fd0 hl
    simp [startWatchFile, hl]
  · intro st nm env fd hl ho hk
    have hstate : (startWatchFile st nm env).state =
        ⟨adel (aset st.name_to_fd nm fd) nm, adel (aset st.fd_to_name fd nm) fd⟩ := by
      simp [startWatchFile, hl, ho, hk]
    refine ⟨?_, ?_, ?_, ?_, ?_, ?_⟩
    · simp [startWatchFile, hl, ho, hk]
    · simp [startWatchFile, hl, ho, hk]
    · rw [hstate]
      show alookup (adel (aset st.name_to_fd nm fd) nm) nm = none
      rw [alookup_adel]
      simp
    · rw [hstate]
      show alookup (adel (aset st.fd_to_name fd nm) fd) fd = none
      rw [alookup_adel]
      simp
    · intro k hkn
      rw [hstate]
      show alookup (adel (aset st.name_to_fd nm fd) nm) k = alookup st.name_to_fd k
      rw [alookup_adel, if_neg hkn, alookup_aset, if_neg hkn]
    · intro d hd
      rw [hstate]
      show alookup (adel (aset st.fd_to_name fd nm) fd) d = alookup st.fd_to_name d
      rw [alookup_adel, if_neg hd, alookup_aset, if_neg hd]

/-- Claim C10 witness: the three branches at concrete inputs — failed open
returns false with open attempted; already-watched name returns true and
untouched state; failed registration closes fd 9, drops the fresh entries
and returns true. -/
theorem start_watch_file_ret_witness :
    ((startWatchFile ⟨[], []⟩ "a" ⟨none, true⟩).opened = true ∧
      (⟨none, true⟩ : FileEnv).openRes = none) ∧
    startWatchFile ⟨[("a", 7)], [(7, "a")]⟩ "a" ⟨some 9, true⟩ =
      ⟨true, ⟨[("a", 7)], [(7, "a")]⟩, false, false, none⟩ ∧
    (startWatchFile ⟨[], []⟩ "a" ⟨some 9, false⟩).ret = true ∧
    (startWatchFile ⟨[], []⟩ "a" ⟨some 9, false⟩).closedFd = some 9 ∧
    alookup (startWatchFile ⟨[], []⟩ "a" ⟨some 9, false⟩).state.name_to_fd "a" = none ∧
    alookup (startWatchFile ⟨[], []⟩ "a" ⟨some 9, false⟩).state.fd_to_name 9 = none := by
  refine ⟨start_watch_file_ret.1 ⟨[], []⟩ "a" ⟨none, true⟩ rfl, ?_, ?_, ?_, ?_, ?_⟩
  · exact start_watch_file_ret.2.1 ⟨[("a", 7)], [(7, "a")]⟩ "a" ⟨some 9, true⟩ 7 rfl
  · exact (start_watch_file_ret.2.2 ⟨[], []⟩ "a" ⟨some 9, false⟩ 9 rfl rfl rfl).1
  · exact (start_watch_file_ret.2.2 ⟨[], []⟩ "a" ⟨some 9, false⟩ 9 rfl rfl rfl).2.1
  · exact (start_watch_file_ret.2.2 ⟨[], []⟩ "a" ⟨some 9, false⟩ 9 rfl rfl rfl).2.2.1
  · exact (start_watch_file_ret.2.2 ⟨[], []⟩ "a" ⟨some 9, false⟩ 9 rfl rfl rfl).2.2.2.1

/-! ### Claim theorems for the query pipeline -/

/-- Claim C1: a since tick below the view's last age-out tick makes the
query a fresh instance, and with empty_on_fresh_instance set the result
set is empty. -/
theorem fresh_instance_law (q : WQuery) (relOk exprOk : String → Bool)
    (s : ViewState) (t : Nat) (h : t < s.lastAgeOutTick) :
    (w_query_execute q relOk exprOk s t).1 = true ∧
    (q.empty_on_fresh_instance = true →
      (w_query_execute q relOk exprOk s t).2.1 = []) := by
  cases he : q.empty_on_fresh_instance with
  | true =>
    constructor
    · simp [w_query_execute, h, he]
    · intro _
      simp [w_query_execute, h, he]
  | false =>
    constructor
    · simp [w_query_execute, h, he]
    · intro hh
      exact absurd hh Bool.false_ne_true

/-- Claim C1 witness at a concrete input: since tick 1 against a view with
last_age_out_tick 5 and empty_on_fresh_instance set. -/
theorem fresh_instance_law_witness :
    (w_query_execute ⟨false, true, false⟩ (fun _ => true) (fun _ => true)
        ⟨[], [], [], 9, 5, 0⟩ 1).1 = true ∧
    (w_query_execute ⟨false, true, false⟩ (fun _ => true) (fun _ => true)
        ⟨[], [], [], 9, 5, 0⟩ 1).2.1 = [] := by
  have h := fresh_instance_law ⟨false, true, false⟩ (fun _ => true) (fun _ => true)
    ⟨[], [], [], 9, 5, 0⟩ 1 (by decide)
  exact ⟨h.1, h.2 rfl⟩

/-- Invariant of the result accumulation under w_query_process_file with
dedup on: the results stay duplicate-free, the dedup set mirrors the
results, and the suppression counter plus the result count equals the
number of candidates passing both filters. -/
theorem process_fold_inv (q : WQuery) (relOk exprOk : String → Bool)
    (hd : q.dedup_results = true) :
    ∀ (files : List String) (ctx : QueryCtx),
      ctx.results.Nodup → (∀ x, x ∈ ctx.dedup ↔ x ∈ ctx.results) →
      (files.foldl (w_query_process_file q relOk exprOk) ctx).results.Nodup ∧
      (∀ x, x ∈ (files.foldl (w_query_process_file q relOk exprOk) ctx).dedup ↔
        x ∈ (files.foldl (w_query_process_file q relOk exprOk) ctx).results) ∧
      (files.foldl (w_query_process_file q relOk exprOk) ctx).num_deduped +
          (files.foldl (w_query_process_file q relOk exprOk) ctx).results.length =
        ctx.num_deduped + ctx.results.length +
          (files.filter fun x => relOk x && exprOk x).length := by
  intro files
  induction files with
  | nil =>
    intro ctx h1 h2
    exact ⟨h1, h2, by simp⟩
  | cons w rest ih =>
    intro ctx h1 h2
    by_cases hrel : relOk w = true
    · by_cases hex : exprOk w = true
      · by_cases hmem : w ∈ ctx.dedup
        · have hstep : w_query_process_file q relOk exprOk ctx w =
              { ctx with num_deduped := ctx.num_deduped + 1 } := by
            simp [w_query_process_file, hrel, hex, hd, hmem]
          have ih' := ih { ctx with num_deduped := ctx.num_deduped + 1 } h1 h2
          refine ⟨?_, ?_, ?_⟩
          · simpa [hstep] using ih'.1
          · simpa [hstep] using ih'.2.1
          · have := ih'.2.2
            simp only [List.foldl_cons, hstep]
            rw [this]
            simp [List.filter_cons, hrel, hex]
            omega
        · have hstep : w_query_process_file q relOk exprOk ctx w =
              { ctx with results := ctx.results ++ [w], dedup := w :: ctx.dedup } := by
            simp [w_query_process_file, hrel, hex, hd, hmem]
          have hw : w ∉ ctx.results := fun hr => hmem ((h2 w).mpr hr)
          have h1' : (ctx.results ++ [w]).Nodup := by
            simp [List.nodup_append, h1, List.disjoint_singleton]
            intro hc
            exact hw hc
          have h2' : ∀ x, x ∈ w :: ctx.dedup ↔ x ∈ ctx.results ++ [w] := by
            intro x
            simp [List.mem_cons, List.mem_append, h2 x, or_comm]
          have ih' := ih { ctx with results := ctx.results ++ [w], dedup := w :: ctx.dedup }
            h1' h2'
          refine ⟨?_, ?_, ?_⟩
          · simpa [hstep] using ih'.1
          · simpa [hstep] using ih'.2.1
          · have := ih'.2.2
            simp only [List.foldl_cons, hstep]
            rw [this]
            simp [List.filter_cons, hrel, hex]
            omega
      · have hstep : w_query_process_file q relOk exprOk ctx w = ctx := by
          simp [w_query_process_file, hrel, hex]
        have ih' := ih ctx h1 h2
        refine ⟨?_, ?_, ?_⟩
        · simpa [hstep] using ih'.1
        · simpa [hstep] using ih'.2.1
        · have := ih'.2.2
          simp only [List.foldl_cons, hstep]
          rw [this]
          simp [List.filter_cons, hrel, hex]
    · have hstep : w_query_process_file q relOk exprOk ctx w = ctx := by
        simp [w_query_process_file, hrel]
      have ih' := ih ctx h1 h2
      refine ⟨?_, ?_, ?_⟩
      · simpa [hstep] using ih'.1
      · simpa [hstep] using ih'.2.1
      · have := ih'.2.2
        simp only [List.foldl_cons, hstep]
        rw [this]
        simp [List.filter_cons, hrel]

/-- Claim C9: with dedup_results on, processing any candidate list from a
fresh query context yields a result set without repeated wholenames, and
num_deduped accounts exactly for the candidate occurrences suppressed by
the dedup check (those passing both filters beyond the first of each
wholename). -/
theorem dedup_law (q : WQuery) (relOk exprOk : String → Bool)
    (files : List String) (since0 : WQuerySince)
    (hd : q.dedup_results = true) :
    (files.foldl (w_query_process_file q relOk exprOk) (initCtx since0)).results.Nodup ∧
    (files.foldl (w_query_process_file q relOk exprOk) (initCtx since0)).num_deduped +
        (files.foldl (w_query_process_file q relOk exprOk) (initCtx since0)).results.length =
      (files.filter fun x => relOk x && exprOk x).length := by
  have h := process_fold_inv q relOk exprOk hd files (initCtx since0)
    (by simp [initCtx]) (by simp [initCtx])
  refine ⟨h.1, ?_⟩
  have := h.2.2
  simpa [initCtx] using this

/-- Claim C9 witness at a concrete input: candidates a, b, a with dedup on
produce results [a, b] and one suppression. -/
theorem dedup_law_witness :
    (["a", "b", "a"].foldl
        (w_query_process_file ⟨false, false, true⟩ (fun _ => true) (fun _ => true))
        (initCtx ⟨false, 0, false, 0⟩)).results.Nodup ∧
    (["a", "b", "a"].foldl
        (w_query_process_file ⟨false, false, true⟩ (fun _ => true) (fun _ => true))
        (initCtx ⟨false, 0, false, 0⟩)).num_deduped +
      (["a", "b", "a"].foldl
        (w_query_process_file ⟨false, false, true⟩ (fun _ => true) (fun _ => true))
        (initCtx ⟨false, 0, false, 0⟩)).results.length =
      (["a", "b", "a"].filter fun x => (fun _ => true) x && (fun _ => true) x).length :=
  dedup_law ⟨false, false, true⟩ (fun _ => true) (fun _ => true) ["a", "b", "a"]
    ⟨false, 0, false, 0⟩ rfl

/-- Membership in the walked part of a list ordered by non-increasing
measure: takeWhile with a lower-bound test keeps exactly the members whose
measure clears the bound. -/
theorem mem_takeWhile_le (f : String → Nat) (t : Nat) :
    ∀ (l : List String), l.Pairwise (fun a b => f b ≤ f a) →
      ∀ w, w ∈ l.takeWhile (fun n => decide (t ≤ f n)) ↔ (w ∈ l ∧ t ≤ f w) := by
  intro l
  induction l with
  | nil => intro _ w; simp
  | cons hdn rest ih =>
    intro hp w
    rcases List.pairwise_cons.mp hp with ⟨hhead, hrest⟩
    by_cases hth : t ≤ f hdn
    · rw [List.takeWhile_cons_of_pos (by simpa using hth)]
      constructor
      · intro hw
        rcases List.mem_cons.mp hw with hw1 | hw2
        · subst hw1
          exact ⟨List.mem_cons_self _ _, hth⟩
        · have h2 := (ih hrest w).mp hw2
          exact ⟨List.mem_cons_of_mem _ h2.1, h2.2⟩
      · intro hw
        rcases List.mem_cons.mp hw.1 with hw1 | hw2
        · subst hw1
          exact List.mem_cons_self _ _
        · exact List.mem_cons_of_mem _ ((ih hrest w).mpr ⟨hw2, hw.2⟩)
    · rw [List.takeWhile_cons_of_neg (by simpa using hth)]
      constructor
      · intro hw
        exact absurd hw (List.not_mem_nil w)
      · intro hw
        rcases List.mem_cons.mp hw.1 with hw1 | hw2
        · subst hw1
          exact absurd hw.2 hth
        · exact absurd (le_trans hw.2 (hhead w hw2)) hth

/-- Claim C2 counterexample: a view holding one file whose otime.tick
equals the cut t = 3 satisfies the state invariant, yet the time generator
emits that file although its tick is not strictly greater than t. -/
theorem time_generator_cex :
    Inv ⟨[("a", ⟨"a", true, 3, 0, 1, 0⟩)], ["a"], [], 3, 0, 0⟩ ∧
    "a" ∈ timeGenerator ⟨[("a", ⟨"a", true, 3, 0, 1, 0⟩)], ["a"], [], 3, 0, 0⟩ 3 ∧
    ¬(3 < tickOf ⟨[("a", ⟨"a", true, 3, 0, 1, 0⟩)], ["a"], [], 3, 0, 0⟩ "a") := by
  decide

/-- Claim C2 (amended): under the state invariant, for any cut t the time
generator visits exactly the tracked files with otime.tick ≥ t — every
recency-list file with tick at least t is emitted and no file with tick
strictly below t is emitted. -/
theorem time_generator_visits (s : ViewState) (t : Nat) (hInv : Inv s) (w : String) :
    w ∈ timeGenerator s t ↔ (w ∈ s.recency ∧ t ≤ tickOf s w) :=
  mem_takeWhile_le (tickOf s) t s.recency hInv.2.1 w

/-- Claim C2 amended-theorem witness at a concrete input: with files b
(tick 5) and a (tick 2) and cut 3, exactly b is visited. -/
theorem time_generator_visits_witness :
    ("b" ∈ timeGenerator
        ⟨[("a", ⟨"a", true, 2, 0, 1, 0⟩), ("b", ⟨"b", true, 5, 0, 1, 0⟩)],
          ["b", "a"], [], 5, 0, 0⟩ 3 ↔ (True ∧ 3 ≤ 5)) ∧
    ("a" ∈ timeGenerator
        ⟨[("a", ⟨"a", true, 2, 0, 1, 0⟩), ("b", ⟨"b", true, 5, 0, 1, 0⟩)],
          ["b", "a"], [], 5, 0, 0⟩ 3 ↔ (True ∧ 3 ≤ 2)) := by
  have hb := time_generator_visits
    ⟨[("a", ⟨"a", true, 2, 0, 1, 0⟩), ("b", ⟨"b", true, 5, 0, 1, 0⟩)],
      ["b", "a"], [], 5, 0, 0⟩ 3 (by decide) "b"
  have ha := time_generator_visits
    ⟨[("a", ⟨"a", true, 2, 0, 1, 0⟩), ("b", ⟨"b", true, 5, 0, 1, 0⟩)],
      ["b", "a"], [], 5, 0, 0⟩ 3 (by decide) "a"
  constructor
  · rw [hb]
    constructor
    · intro h
      exact ⟨trivial, by decide⟩
    · intro _
      exact ⟨by decide, by decide⟩
  · rw [ha]
    constructor
    · intro h
      exact absurd h.2 (by decide)
    · intro h
      exact absurd h.2 (by decide)

/-! ### Claim theorems for age-out -/

/-- Lookup of a key that the filter removed is none. -/
theorem alookup_filter_out {α : Type} (bad : List String) :
    ∀ (tab : List (String × α)) (n : String), n ∈ bad →
      alookup (tab.filter fun p => decide (p.1 ∉ bad)) n = none := by
  intro tab n hn
  induction tab with
  | nil => simp [alookup]
  | cons p rest ih =>
    by_cases hp : p.1 ∈ bad
    · have : (decide (p.1 ∉ bad)) = false := by simp [hp]
      simp only [List.filter_cons, this, Bool.false_eq_true, if_false]
      exact ih
    · have hne : ¬ p.1 = n := fun h => hp (h ▸ hn)
      have : (decide (p.1 ∉ bad)) = true := by simp [hp]
      simp only [List.filter_cons, this, if_true]
      obtain ⟨pk, pv⟩ := p
      simp only [alookup, if_neg hne]
      exact ih

/-- Claim C3 counterexample: the spec's walk stops at the first existing
file seen from the tail, so an old tombstone closer to the head survives
ageOut.  File a (exists, old) sits at the tail; file b (deleted, age
9800 > min_age 50) stays in the table, the recency list, and its suffix
bucket, although the invariant holds. -/
theorem age_out_cex :
    Inv ⟨[("b", ⟨"b", false, 3, 200, 2, 0⟩), ("a", ⟨"a", true, 1, 100, 1, 0⟩)],
          ["b", "a"], [("", ["b"])], 3, 0, 0⟩ ∧
    (alookup (ageOut 10000 50
        ⟨[("b", ⟨"b", false, 3, 200, 2, 0⟩), ("a", ⟨"a", true, 1, 100, 1, 0⟩)],
          ["b", "a"], [("", ["b"])], 3, 0, 0⟩).fileTab "b" =
      some ⟨"b", false, 3, 200, 2, 0⟩) ∧
    "b" ∈ (ageOut 10000 50
        ⟨[("b", ⟨"b", false, 3, 200, 2, 0⟩), ("a", ⟨"a", true, 1, 100, 1, 0⟩)],
          ["b", "a"], [("", ["b"])], 3, 0, 0⟩).recency ∧
    50 < 10000 - 200 := by
  decide

/-- Claim C3 (amended): every file in the walked tail segment — the
maximal run from the recency tail of non-existent files older than
min_age, up to the first existing or young file — satisfies the age-out
condition and is removed from the files table, the recency list and every
suffix bucket. -/
theorem age_out_sound (now minAge : Nat) (s : ViewState) (n : String)
    (h : n ∈ ageOutSegment now minAge s) :
    (∃ f, alookup s.fileTab n = some f ∧ f.fexists = false ∧
      minAge < now - f.otime_stamp) ∧
    alookup (ageOut now minAge s).fileTab n = none ∧
    n ∉ (ageOut now minAge s).recency ∧
    (∀ b ∈ (ageOut now minAge s).suffix, n ∉ b.2) := by
  refine ⟨?_, ?_, ?_, ?_⟩
  · have hp := List.mem_takeWhile_imp h
    cases hl : alookup s.fileTab n with
    | none => rw [hl] at hp; simp at hp
    | some f =>
      rw [hl] at hp
      simp only [Bool.and_eq_true, Bool.not_eq_true', decide_eq_true_eq] at hp
      exact ⟨f, rfl, hp.1, hp.2⟩
  · exact alookup_filter_out (ageOutSegment now minAge s) s.fileTab n h
  · intro hmem
    have := (List.mem_filter.mp hmem).2
    simp only [decide_eq_true_eq] at this
    exact this h
  · intro b hb hmem
    simp only [ageOut, List.mem_map] at hb
    obtain ⟨b0, _, hb0⟩ := hb
    rw [← hb0] at hmem
    have := (List.mem_filter.mp hmem).2
    simp only [decide_eq_true_eq] at this
    exact this h

/-- Claim C3 amended-theorem witness at a concrete input: a sole old
tombstone is reaped from the table, the recency list and its bucket. -/
theorem age_out_sound_witness :
    (∃ f, alookup
        (⟨[("b", ⟨"b", false, 3, 200, 2, 0⟩)], ["b"], [("", ["b"])], 3, 0, 0⟩ :
          ViewState).fileTab "b" = some f ∧ f.fexists = false ∧
      50 < 10000 - f.otime_stamp) ∧
    alookup (ageOut 10000 50
      ⟨[("b", ⟨"b", false, 3, 200, 2, 0⟩)], ["b"], [("", ["b"])], 3, 0, 0⟩).fileTab "b"
      = none ∧
    "b" ∉ (ageOut 10000 50
      ⟨[("b", ⟨"b", false, 3, 200, 2, 0⟩)], ["b"], [("", ["b"])], 3, 0, 0⟩).recency ∧
    (∀ b ∈ (ageOut 10000 50
      ⟨[("b", ⟨"b", false, 3, 200, 2, 0⟩)], ["b"], [("", ["b"])], 3, 0, 0⟩).suffix,
      "b" ∉ b.2) :=
  age_out_sound 10000 50
    ⟨[("b", ⟨"b", false, 3, 200, 2, 0⟩)], ["b"], [("", ["b"])], 3, 0, 0⟩ "b" (by decide)

/-! ### Invariant preservation lemmas for the mutation operations -/

/-- Any wholename's tick is bounded by mostRecentTick when the table is. -/
theorem tickOf_le_mrt (s : ViewState)
    (hb : ∀ p ∈ s.fileTab, p.2.otime_tick ≤ s.mostRecentTick) (w : String) :
    tickOf s w ≤ s.mostRecentTick := by
  unfold tickOf
  cases hl : alookup s.fileTab w with
  | none => simp
  | some f => exact hb (w, f) (alookup_mem _ _ _ hl)

/-- A key present as a pair in the table is found by lookup. -/
theorem alookup_isSome_of_mem {α : Type} (l : List (String × α)) (p : String × α)
    (h : p ∈ l) : (alookup l p.1).isSome := by
  induction l with
  | nil => exact absurd h (List.not_mem_nil p)
  | cons q rest ih =>
    obtain ⟨qk, qv⟩ := q
    by_cases hq : qk = p.1
    · simp [alookup, hq]
    · rcases List.mem_cons.mp h with h1 | h2
      · rw [h1] at hq
        exact absurd rfl hq
      · simpa [alookup, hq] using ih h2

/-- Ticks in a touched state: the touched name carries f'.otime_tick, all
others are unchanged. -/
theorem tickOf_touched (s : ViewState) (w : String) (f' : WFile)
    (B : List (String × List String)) (tick : Nat) (v : String) :
    tickOf (touched s w f' B tick) v = if v = w then f'.otime_tick else tickOf s v := by
  simp only [touched, tickOf]
  rw [alookup_aset]
  by_cases hv : v = w
  · simp [hv]
  · simp [hv]

/-- Ticks in a created state: same statement as for a touched state. -/
theorem tickOf_created (s : ViewState) (w : String) (f' : WFile)
    (B : List (String × List String)) (tick : Nat) (v : String) :
    tickOf (created s w f' B tick) v = if v = w then f'.otime_tick else tickOf s v := by
  simp only [created, tickOf]
  rw [alookup_aset]
  by_cases hv : v = w
  · simp [hv]
  · simp [hv]

/-- Re-stamping a tracked file (new tick at least as recent as every
recorded one) and moving it to the recency head preserves the state
invariant, whatever happens to the suffix buckets. -/
theorem touch_inv (s : ViewState) (w : String) (f' : WFile)
    (B : List (String × List String)) (tick : Nat)
    (hI : Inv s) (hmrt : s.mostRecentTick ≤ tick) (hf : f'.otime_tick = tick) :
    Inv (touched s w f' B tick) := by
  obtain ⟨hb, hord, htr⟩ := hI
  have htu : ∀ u : String, u ≠ w → tickOf (touched s w f' B tick) u = tickOf s u := by
    intro u hu
    rw [tickOf_touched, if_neg hu]
  have htw : tickOf (touched s w f' B tick) w = tick := by
    rw [tickOf_touched, if_pos rfl, hf]
  refine ⟨?_, ?_, ?_⟩
  · intro p hp
    rcases mem_aset _ _ _ _ hp with h1 | h2
    · rw [h1]
      exact le_trans (le_of_eq hf) (le_max_right _ _)
    · exact le_trans (hb p h2) (le_max_left _ _)
  · show (w :: s.recency.filter (fun x => decide (x ≠ w))).Pairwise
      (fun a b => tickOf (touched s w f' B tick) b ≤ tickOf (touched s w f' B tick) a)
    refine List.pairwise_cons.mpr ⟨?_, ?_⟩
    · intro b hbmem
      have hbne : b ≠ w := by
        have := (List.mem_filter.mp hbmem).2
        simpa using this
      rw [htw, htu b hbne]
      exact le_trans (tickOf_le_mrt s hb b) hmrt
    · have hsub : (s.recency.filter (fun x => decide (x ≠ w))).Pairwise
          (fun a b => tickOf s b ≤ tickOf s a) :=
        List.Pairwise.sublist (List.filter_sublist _) hord
      refine List.Pairwise.imp_of_mem ?_ hsub
      intro a b ha hb' hr
      have hane : a ≠ w := by
        have := (List.mem_filter.mp ha).2
        simpa using this
      have hbne : b ≠ w := by
        have := (List.mem_filter.mp hb').2
        simpa using this
      rw [htu a hane, htu b hbne]
      exact hr
  · show ∀ u ∈ w :: s.recency.filter (fun x => decide (x ≠ w)),
      (alookup (aset s.fileTab w f') u).isSome
    intro u hu
    rcases List.mem_cons.mp hu with h1 | h2
    · rw [h1, alookup_aset, if_pos rfl]
      rfl
    · have humem := (List.mem_filter.mp h2).1
      have hune : u ≠ w := by
        have := (List.mem_filter.mp h2).2
        simpa using this
      rw [alookup_aset, if_neg hune]
      exact htr u humem

/-- Creating a fresh tracked file at the head of the recency list
preserves the state invariant. -/
theorem create_inv (s : ViewState) (w : String) (f' : WFile)
    (B : List (String × List String)) (tick : Nat)
    (hI : Inv s) (hmrt : s.mostRecentTick ≤ tick) (hf : f'.otime_tick = tick)
    (hl : alookup s.fileTab w = none) :
    Inv (created s w f' B tick) := by
  obtain ⟨hb, hord, htr⟩ := hI
  have hnew : ∀ u ∈ s.recency, u ≠ w := by
    intro u hu he
    have := htr u hu
    rw [he, hl] at this
    exact absurd this (by simp)
  have htu : ∀ u : String, u ≠ w → tickOf (created s w f' B tick) u = tickOf s u := by
    intro u hu
    rw [tickOf_created, if_neg hu]
  have htw : tickOf (created s w f' B tick) w = tick := by
    rw [tickOf_created, if_pos rfl, hf]
  refine ⟨?_, ?_, ?_⟩
  · intro p hp
    rcases mem_aset _ _ _ _ hp with h1 | h2
    · rw [h1]
      exact le_trans (le_of_eq hf) (le_max_right _ _)
    · exact le_trans (hb p h2) (le_max_left _ _)
  · show (w :: s.recency).Pairwise
      (fun a b => tickOf (created s w f' B tick) b ≤ tickOf (created s w f' B tick) a)
    refine List.pairwise_cons.mpr ⟨?_, ?_⟩
    · intro b hbmem
      rw [htw, htu b (hnew b hbmem)]
      exact le_trans (tickOf_le_mrt s hb b) hmrt
    · refine List.Pairwise.imp_of_mem ?_ hord
      intro a b ha hb' hr
      rw [htu a (hnew a ha), htu b (hnew b hb')]
      exact hr
  · show ∀ u ∈ w :: s.recency, (alookup (aset s.fileTab w f') u).isSome
    intro u hu
    rcases List.mem_cons.mp hu with h1 | h2
    · rw [h1, alookup_aset, if_pos rfl]
      rfl
    · rw [alookup_aset, if_neg (hnew u h2)]
      exact htr u h2

/-- A stamp of an untracked name is the identity. -/
theorem stampDeleted_untracked (now tick : Nat) (s : ViewState) (w : String)
    (hl : alookup s.fileTab w = none) : stampDeleted now tick s w = s := by
  simp [stampDeleted, hl]

/-- Ticks after a stamp: the stamped name carries the new tick, all others
are untouched. -/
theorem tickOf_stamp (now tick : Nat) (s : ViewState) (w v : String) (f : WFile)
    (hl : alookup s.fileTab w = some f) :
    tickOf (stampDeleted now tick s w) v = if v = w then tick else tickOf s v := by
  simp only [stampDeleted, hl, tickOf]
  rw [alookup_aset]
  by_cases hv : v = w
  · simp [hv]
  · simp [hv]

/-- One stamp preserves the invariant and the tick bound. -/
theorem stamp_inv (now tick : Nat) (s : ViewState) (w : String)
    (hI : Inv s) (hmrt : s.mostRecentTick ≤ tick) :
    Inv (stampDeleted now tick s w) ∧
    (stampDeleted now tick s w).mostRecentTick ≤ tick := by
  cases hl : alookup s.fileTab w with
  | none =>
    rw [stampDeleted_untracked now tick s w hl]
    exact ⟨hI, hmrt⟩
  | some f =>
    constructor
    · simp only [stampDeleted, hl]
      exact touch_inv s w _ _ tick hI hmrt rfl
    · simp only [stampDeleted, hl]
      exact max_le hmrt (le_refl tick)

/-- One stamp keeps every tracked name tracked. -/
theorem stamp_tracked (now tick : Nat) (s : ViewState) (w u : String)
    (h : (alookup s.fileTab u).isSome) :
    (alookup (stampDeleted now tick s w).fileTab u).isSome := by
  cases hl : alookup s.fileTab w with
  | none => rw [stampDeleted_untracked now tick s w hl]; exact h
  | some f =>
    simp only [stampDeleted, hl]
    by_cases hu : u = w
    · rw [alookup_aset, if_pos hu]
      rfl
    · rw [alookup_aset, if_neg hu]
      exact h

/-- One stamp never moves a name off the current tick value. -/
theorem stamp_tick_stable (now tick : Nat) (s : ViewState) (w v : String)
    (h : tickOf s v = tick) : tickOf (stampDeleted now tick s w) v = tick := by
  cases hl : alookup s.fileTab w with
  | none => rw [stampDeleted_untracked now tick s w hl]; exact h
  | some f =>
    rw [tickOf_stamp now tick s w v f hl]
    by_cases hv : v = w
    · simp [hv]
    · simp [hv, h]

/-- One stamp keeps mostRecentTick at the stamping tick. -/
theorem stamp_mrt_stable (now tick : Nat) (s : ViewState) (w : String)
    (h : s.mostRecentTick = tick) :
    (stampDeleted now tick s w).mostRecentTick = tick := by
  cases hl : alookup s.fileTab w with
  | none => rw [stampDeleted_untracked now tick s w hl]; exact h
  | some f =>
    simp only [stampDeleted, hl]
    rw [h]
    exact Nat.max_self tick

/-- The stamping fold preserves the invariant and the tick bound. -/
theorem fold_stamp_inv (now tick : Nat) :
    ∀ (vs : List String) (s : ViewState), Inv s → s.mostRecentTick ≤ tick →
      Inv (vs.foldl (stampDeleted now tick) s) ∧
      (vs.foldl (stampDeleted now tick) s).mostRecentTick ≤ tick := by
  intro vs
  induction vs with
  | nil => intro s hI hm; exact ⟨hI, hm⟩
  | cons v rest ih =>
    intro s hI hm
    have h1 := stamp_inv now tick s v hI hm
    simpa using ih (stampDeleted now tick s v) h1.1 h1.2

/-- The stamping fold never moves a name off the current tick value. -/
theorem fold_stamp_tick_stable (now tick : Nat) :
    ∀ (vs : List String) (s : ViewState) (v : String), tickOf s v = tick →
      tickOf (vs.foldl (stampDeleted now tick) s) v = tick := by
  intro vs
  induction vs with
  | nil => intro s v h; exact h
  | cons w rest ih =>
    intro s v h
    simpa using ih (stampDeleted now tick s w) v (stamp_tick_stable now tick s w v h)

/-- The stamping fold keeps every tracked name tracked. -/
theorem fold_stamp_tracked (now tick : Nat) :
    ∀ (vs : List String) (s : ViewState) (u : String), (alookup s.fileTab u).isSome →
      (alookup (vs.foldl (stampDeleted now tick) s).fileTab u).isSome := by
  intro vs
  induction vs with
  | nil => intro s u h; exact h
  | cons w rest ih =>
    intro s u h
    simpa using ih (stampDeleted now tick s w) u (stamp_tracked now tick s w u h)

/-- After the stamping fold, every tracked stamped name carries the
stamping tick. -/
theorem fold_stamp_victims (now tick : Nat) :
    ∀ (vs : List String) (s : ViewState), (∀ v ∈ vs, (alookup s.fileTab v).isSome) →
      ∀ v ∈ vs, tickOf (vs.foldl (stampDeleted now tick) s) v = tick := by
  intro vs
  induction vs with
  | nil => intro s _ v hv; exact absurd hv (List.not_mem_nil v)
  | cons v0 rest ih =>
    intro s htrk v hv
    have htrk' : ∀ u ∈ rest, (alookup (stampDeleted now tick s v0).fileTab u).isSome :=
      fun u hu => stamp_tracked now tick s v0 u (htrk u (List.mem_cons_of_mem _ hu))
    rcases List.mem_cons.mp hv with h1 | h2
    · subst h1
      obtain ⟨f, hf⟩ := Option.isSome_iff_exists.mp (htrk v (List.mem_cons_self _ _))
      have h0 : tickOf (stampDeleted now tick s v) v = tick := by
        rw [tickOf_stamp now tick s v v f hf]
        simp
      simpa using fold_stamp_tick_stable now tick rest (stampDeleted now tick s v) v h0
    · simpa using ih (stampDeleted now tick s v0) htrk' v h2

/-- The stamping fold keeps mostRecentTick at the stamping tick. -/
theorem fold_stamp_mrt_stable (now tick : Nat) :
    ∀ (vs : List String) (s : ViewState), s.mostRecentTick = tick →
      (vs.foldl (stampDeleted now tick) s).mostRecentTick = tick := by
  intro vs
  induction vs with
  | nil => intro s h; exact h
  | cons w rest ih =>
    intro s h
    simpa using ih (stampDeleted now tick s w) (stamp_mrt_stable now tick s w h)

/-- After stamping a non-empty list of tracked names, mostRecentTick is
the stamping tick. -/
theorem fold_stamp_mrt (now tick : Nat) :
    ∀ (vs : List String) (s : ViewState), vs ≠ [] →
      (∀ v ∈ vs, (alookup s.fileTab v).isSome) → s.mostRecentTick ≤ tick →
      (vs.foldl (stampDeleted now tick) s).mostRecentTick = tick := by
  intro vs
  cases vs with
  | nil => intro s h; exact absurd rfl h
  | cons v0 rest =>
    intro s _ htrk hm
    obtain ⟨f, hf⟩ := Option.isSome_iff_exists.mp (htrk v0 (List.mem_cons_self _ _))
    have h0 : (stampDeleted now tick s v0).mostRecentTick = tick := by
      simp only [stampDeleted, hf]
      exact Nat.max_eq_right hm
    simpa using fold_stamp_mrt_stable now tick rest (stampDeleted now tick s v0) h0

/-- After stamping a non-empty list of tracked names, the recency head is
one of the stamped names. -/
theorem fold_stamp_head (now tick : Nat) :
    ∀ (vs : List String) (s : ViewState), vs ≠ [] →
      (∀ v ∈ vs, (alookup s.fileTab v).isSome) →
      ∃ u ∈ vs, (vs.foldl (stampDeleted now tick) s).recency.head? = some u := by
  intro vs
  induction vs with
  | nil => intro s h; exact absurd rfl h
  | cons v0 rest ih =>
    intro s _ htrk
    cases hrest : rest with
    | nil =>
      obtain ⟨f, hf⟩ := Option.isSome_iff_exists.mp (htrk v0 (List.mem_cons_self _ _))
      refine ⟨v0, List.mem_cons_self _ _, ?_⟩
      simp [stampDeleted, hf]
    | cons v1 rest2 =>
      rw [← hrest]
      have htrk' : ∀ u ∈ rest, (alookup (stampDeleted now tick s v0).fileTab u).isSome :=
        fun u hu => stamp_tracked now tick s v0 u (htrk u (List.mem_cons_of_mem _ hu))
      have hne : rest ≠ [] := by rw [hrest]; exact List.cons_ne_nil _ _
      obtain ⟨u, hu, hh⟩ := ih (stampDeleted now tick s v0) hne htrk'
      exact ⟨u, List.mem_cons_of_mem _ hu, by simpa using hh⟩

/-- Every name markDirDeleted stamps is tracked. -/
theorem dirVictims_tracked (s : ViewState) (d : String) (r : Bool) :
    ∀ v ∈ dirVictims s d r, (alookup s.fileTab v).isSome := by
  intro v hv
  simp only [dirVictims, List.mem_map] at hv
  obtain ⟨p, hp, hpv⟩ := hv
  rw [← hpv]
  exact alookup_isSome_of_mem s.fileTab p (List.mem_of_mem_filter hp)

/-- Claim C4 counterexample: markDirDeleted on a directory with two files
stamps both with the same tick, so the earlier-stamped file d/a is a
mutated file that is not at the head of the recency list (d/b is), even
though the state invariant held before the call. -/
theorem mark_dir_deleted_cex :
    Inv ⟨[("d/a", ⟨"a", true, 2, 0, 1, 0⟩), ("d/b", ⟨"b", true, 1, 0, 1, 0⟩)],
          ["d/a", "d/b"], [], 2, 0, 0⟩ ∧
    "d/a" ∈ dirVictims ⟨[("d/a", ⟨"a", true, 2, 0, 1, 0⟩), ("d/b", ⟨"b", true, 1, 0, 1, 0⟩)],
          ["d/a", "d/b"], [], 2, 0, 0⟩ "d" true ∧
    tickOf (markDirDeleted ⟨[("d/a", ⟨"a", true, 2, 0, 1, 0⟩), ("d/b", ⟨"b", true, 1, 0, 1, 0⟩)],
          ["d/a", "d/b"], [], 2, 0, 0⟩ "d" 10 3 true) "d/a" = 3 ∧
    (markDirDeleted ⟨[("d/a", ⟨"a", true, 2, 0, 1, 0⟩), ("d/b", ⟨"b", true, 1, 0, 1, 0⟩)],
          ["d/a", "d/b"], [], 2, 0, 0⟩ "d" 10 3 true).recency.head? = some "d/b" ∧
    ¬((markDirDeleted ⟨[("d/a", ⟨"a", true, 2, 0, 1, 0⟩), ("d/b", ⟨"b", true, 1, 0, 1, 0⟩)],
          ["d/a", "d/b"], [], 2, 0, 0⟩ "d" 10 3 true).recency.head? = some "d/a") := by
  decide

/-- Claim C4 (amended): under the state invariant and a tick at least as
recent as every recorded one, each mutation preserves the invariant (tick
bound and non-increasing recency order); after markFileChanged on a
tracked file, and after getOrCreateChildFile on an untracked name, the
mutated file's otime.tick equals mostRecentTick and it heads the recency
list; after markDirDeleted every stamped file's otime.tick equals
mostRecentTick and the recency head is one of the stamped files. -/
theorem mutation_invariants :
    (∀ (s : ViewState) (w : String) (f : WFile) (now tick : Nat),
      Inv s → alookup s.fileTab w = some f → s.mostRecentTick ≤ tick →
        Inv (markFileChanged s w now tick) ∧
        (markFileChanged s w now tick).recency.head? = some w ∧
        tickOf (markFileChanged s w now tick) w =
          (markFileChanged s w now tick).mostRecentTick) ∧
    (∀ (s : ViewState) (d nm : String) (now tick : Nat),
      Inv s → alookup s.fileTab (childPath d nm) = none → s.mostRecentTick ≤ tick →
        Inv (getOrCreateChildFile s d nm now tick) ∧
        (getOrCreateChildFile s d nm now tick).recency.head? = some (childPath d nm) ∧
        tickOf (getOrCreateChildFile s d nm now tick) (childPath d nm) =
          (getOrCreateChildFile s d nm now tick).mostRecentTick) ∧
    (∀ (s : ViewState) (d : String) (now tick : Nat) (r : Bool),
      Inv s → s.mostRecentTick ≤ tick →
        Inv (markDirDeleted s d now tick r) ∧
        (∀ v ∈ dirVictims s d r,
          tickOf (markDirDeleted s d now tick r) v =
            (markDirDeleted s d now tick r).mostRecentTick) ∧
        (dirVictims s d r ≠ [] →
          ∃ u ∈ dirVictims s d r,
            (markDirDeleted s d now tick r).recency.head? = some u)) := by
  refine ⟨?_, ?_, ?_⟩
  · intro s w f now tick hI hl hmrt
    have heq : markFileChanged s w now tick =
        touched s w { f with otime_tick := tick, otime_stamp := now }
          (suffixInsert s.suffix (suffixOf f.name) w) tick := by
      simp [markFileChanged, touched, hl]
    refine ⟨?_, ?_, ?_⟩
    · rw [heq]
      exact touch_inv s w _ _ tick hI hmrt rfl
    · rw [heq]
      simp [touched]
    · rw [heq, tickOf_touched, if_pos rfl]
      simp [touched, Nat.max_eq_right hmrt]
  · intro s d nm now tick hI hl hmrt
    have heq : getOrCreateChildFile s d nm now tick =
        created s (childPath d nm) ⟨nm, false, tick, now, tick, now⟩
          (suffixInsert s.suffix (suffixOf nm) (childPath d nm)) tick := by
      simp [getOrCreateChildFile, created, hl]
    refine ⟨?_, ?_, ?_⟩
    · rw [heq]
      exact create_inv s (childPath d nm) _ _ tick hI hmrt rfl hl
    · rw [heq]
      simp [created]
    · rw [heq, tickOf_created, if_pos rfl]
      simp [created, Nat.max_eq_right hmrt]
  · intro s d now tick r hI hmrt
    have htrk := dirVictims_tracked s d r
    refine ⟨?_, ?_, ?_⟩
    · exact (fold_stamp_inv now tick (dirVictims s d r) s hI hmrt).1
    · intro v hv
      have ht := fold_stamp_victims now tick (dirVictims s d r) s htrk v hv
      have hm := fold_stamp_mrt now tick (dirVictims s d r) s
        (List.ne_nil_of_mem hv) htrk hmrt
      show tickOf ((dirVictims s d r).foldl (stampDeleted now tick) s) v =
        ((dirVictims s d r).foldl (stampDeleted now tick) s).mostRecentTick
      rw [ht, hm]
    · intro hne
      exact fold_stamp_head now tick (dirVictims s d r) s hne htrk

/-- Claim C4 amended-theorem witness at concrete inputs: one instance of
each mutation with its conclusions. -/
theorem mutation_invariants_witness :
    (Inv (markFileChanged ⟨[("x", ⟨"x", true, 1, 0, 1, 0⟩)], ["x"], [], 1, 0, 0⟩ "x" 5 2) ∧
      (markFileChanged ⟨[("x", ⟨"x", true, 1, 0, 1, 0⟩)], ["x"], [], 1, 0, 0⟩
        "x" 5 2).recency.head? = some "x" ∧
      tickOf (markFileChanged ⟨[("x", ⟨"x", true, 1, 0, 1, 0⟩)], ["x"], [], 1, 0, 0⟩
          "x" 5 2) "x" =
        (markFileChanged ⟨[("x", ⟨"x", true, 1, 0, 1, 0⟩)], ["x"], [], 1, 0, 0⟩
          "x" 5 2).mostRecentTick) ∧
    (Inv (getOrCreateChildFile ⟨[], [], [], 0, 0, 0⟩ "d" "y" 1 1) ∧
      (getOrCreateChildFile ⟨[], [], [], 0, 0, 0⟩ "d" "y" 1 1).recency.head? =
        some (childPath "d" "y")) ∧
    (Inv (markDirDeleted ⟨[("d/a", ⟨"a", true, 1, 0, 1, 0⟩)], ["d/a"], [], 1, 0, 0⟩
        "d" 9 4 true) ∧
      (∀ v ∈ dirVictims ⟨[("d/a", ⟨"a", true, 1, 0, 1, 0⟩)], ["d/a"], [], 1, 0, 0⟩ "d" true,
        tickOf (markDirDeleted ⟨[("d/a", ⟨"a", true, 1, 0, 1, 0⟩)], ["d/a"], [], 1, 0, 0⟩
            "d" 9 4 true) v =
          (markDirDeleted ⟨[("d/a", ⟨"a", true, 1, 0, 1, 0⟩)], ["d/a"], [], 1, 0, 0⟩
            "d" 9 4 true).mostRecentTick)) := by
  have h1 := mutation_invariants.1 ⟨[("x", ⟨"x", true, 1, 0, 1, 0⟩)], ["x"], [], 1, 0, 0⟩
    "x" ⟨"x", true, 1, 0, 1, 0⟩ 5 2 (by decide) (by decide) (by decide)
  have h2 := mutation_invariants.2.1 ⟨[], [], [], 0, 0, 0⟩ "d" "y" 1 1
    (by decide) (by decide) (by decide)
  have h3 := mutation_invariants.2.2 ⟨[("d/a", ⟨"a", true, 1, 0, 1, 0⟩)], ["d/a"], [], 1, 0, 0⟩
    "d" 9 4 true (by decide) (by decide)
  exact ⟨⟨h1.1, h1.2.1, h1.2.2⟩, ⟨h2.1, h2.2.1⟩, ⟨h3.1, h3.2.1⟩⟩

end Watchman
